import Mathlib

/-!
Shallow embedding of the Theologian-web retrieval pipeline
(`src/main.py` and `src/data_processor.py`) and proofs about it.

The embedding covers:
* `CacheManager` (`src/main.py` lines 414-456): a dict from digest keys to
  `{data, timestamp}` records, with lazy TTL expiry on `get` and
  oldest-write eviction on `set`.  A Python dict preserves insertion
  order and has unique keys, so it is modelled as a `List CacheEntry`
  in insertion order; `min(keys, key=timestamp)` returns the first key
  in insertion order whose timestamp is minimal, which is exactly what
  `oldestEntry` computes.  Keys model the md5 digests of normalised
  queries; timestamps model `datetime.now().timestamp()` as naturals.
* `chunk_document` (`src/data_processor.py` lines 180-217; the variant in
  `src/main.py` lines 126-152 keeps and skips exactly the same windows
  and stores the same stripped content): strings are `List Char`,
  Python's `content[i:i+chunk_size]` is `(content.drop i).take size`,
  `str.strip()` is `pyStrip`, and the md5 passage id is modelled by the
  deterministic function `chunkId` of its digest input `f"{source}_{i}"`.
  `range(0, L, step)` with `step = chunk_size - overlap` is: a
  `ValueError` when the step is zero, the empty range when the step is
  negative, and `strideWindows` when it is positive; `chunk_document`
  returns `Except` accordingly.
* `VectorSearchEngine.search` (`src/main.py` lines 336-360): the FAISS
  call is an oracle `index : Nat → List (Nat × ℚ)` producing
  (position, score) hits; scores are modelled as rationals.
* the confidence computation of `vector_search` (`src/main.py`
  lines 534-553), and the IVF_PQ cluster counts of
  `TheologyDocumentProcessor.build_faiss_index`
  (`src/data_processor.py` line 254) and
  `FAISSIndexManager.create_index` (`src/main.py` lines 160-178).
-/

/-! ## Response cache (`CacheManager`, src/main.py 414-456) -/

/-- One entry of `CacheManager.cache`: a digest key mapped to
`{'data': data, 'timestamp': timestamp}`. -/
structure CacheEntry where
  key : Nat
  timestamp : Nat
  data : Nat
deriving Repr, DecidableEq

/-- Step function of Python's `min(..., key=lambda k: cache[k]['timestamp'])`:
the accumulator is replaced only on a strictly smaller timestamp, so the
first minimum in insertion order wins. -/
def oldestBetween (a e : CacheEntry) : CacheEntry :=
  if e.timestamp < a.timestamp then e else a

/-- `min(self.cache.keys(), key=lambda k: self.cache[k]['timestamp'])`:
the first entry (in insertion order) with the smallest timestamp,
or `none` for an empty cache (where Python's `min` would raise). -/
def oldestEntry : List CacheEntry → Option CacheEntry
  | [] => none
  | e :: rest => some (rest.foldl oldestBetween e)

/-- `del self.cache[oldest_key]` after computing the oldest key. -/
def evictOldest (c : List CacheEntry) : List CacheEntry :=
  match oldestEntry c with
  | none => c
  | some e => c.eraseP (fun x => x.key == e.key)

/-- `self.cache[key] = {'data': data, 'timestamp': ts}`: a Python dict
assignment updates an existing key in place (keeping its position in
insertion order) and otherwise appends the new key at the end. -/
def setEntry (c : List CacheEntry) (k ts d : Nat) : List CacheEntry :=
  if c.any (fun e => e.key == k) then
    c.map (fun e => if e.key == k then ⟨k, ts, d⟩ else e)
  else c ++ [⟨k, ts, d⟩]

/-- `CacheManager.set` (src/main.py 441-456): evict the oldest entry when
`len(self.cache) >= self.max_size`, then store the new record. -/
def cacheSet (maxSize : Nat) (c : List CacheEntry) (k ts d : Nat) : List CacheEntry :=
  setEntry (if maxSize ≤ c.length then evictOldest c else c) k ts d

/-- `CacheManager.get` (src/main.py 424-439): returns the payload when the
key is present and `now - timestamp < duration`; deletes the entry and
returns `none` when it is present but expired; returns `none` untouched
when absent.  Returns the result together with the updated cache. -/
def cacheGet (duration : Nat) (c : List CacheEntry) (k now : Nat) :
    Option Nat × List CacheEntry :=
  match c.find? (fun e => e.key == k) with
  | some e =>
    if now - e.timestamp < duration then (some e.data, c)
    else (none, c.eraseP (fun x => x.key == k))
  | none => (none, c)

/-- A sequence of `set` calls, each given as `(key, timestamp, data)`. -/
def putAll (maxSize : Nat) (c : List CacheEntry) (puts : List (Nat × Nat × Nat)) :
    List CacheEntry :=
  puts.foldl (fun acc p => cacheSet maxSize acc p.1 p.2.1 p.2.2) c

/-- The entry stored for the `i`-th distinct query in the insertion
scenarios: fresh key `i`, strictly increasing timestamp `i`. -/
def mkE (i : Nat) : CacheEntry := ⟨i, i, i⟩

/-- Inserting `n` distinct queries with strictly increasing timestamps
into an initially empty cache of capacity `maxSize`. -/
def insertSeq (maxSize n : Nat) : List CacheEntry :=
  putAll maxSize [] ((List.range n).map (fun i => (i, i, i)))

/-! ### Cache lemmas -/

theorem foldl_oldestBetween_mem (l : List CacheEntry) (a : CacheEntry) :
    l.foldl oldestBetween a = a ∨ l.foldl oldestBetween a ∈ l := by
  induction l generalizing a with
  | nil => exact Or.inl rfl
  | cons e rest ih =>
    simp only [List.foldl_cons]
    rcases ih (oldestBetween a e) with h | h
    · rw [h]
      unfold oldestBetween
      split
      · exact Or.inr (List.mem_cons_self _ _)
      · exact Or.inl rfl
    · exact Or.inr (List.mem_cons_of_mem _ h)

theorem foldl_oldestBetween_le (l : List CacheEntry) (a : CacheEntry) :
    (l.foldl oldestBetween a).timestamp ≤ a.timestamp ∧
      ∀ x ∈ l, (l.foldl oldestBetween a).timestamp ≤ x.timestamp := by
  induction l generalizing a with
  | nil => exact ⟨le_refl _, by simp⟩
  | cons e rest ih =>
    obtain ⟨h1, h2⟩ := ih (oldestBetween a e)
    have hae : (oldestBetween a e).timestamp ≤ a.timestamp ∧
        (oldestBetween a e).timestamp ≤ e.timestamp := by
      unfold oldestBetween
      split
      · exact ⟨le_of_lt (by assumption), le_refl _⟩
      · exact ⟨le_refl _, le_of_not_lt (by assumption)⟩
    refine ⟨le_trans h1 hae.1, ?_⟩
    intro x hx
    rcases List.mem_cons.mp hx with rfl | hx
    · exact le_trans h1 hae.2
    · exact h2 x hx

theorem foldl_oldestBetween_stay (l : List CacheEntry) (a : CacheEntry)
    (h : ∀ x ∈ l, ¬ x.timestamp < a.timestamp) :
    l.foldl oldestBetween a = a := by
  induction l generalizing a with
  | nil => rfl
  | cons e rest ih =>
    simp only [List.foldl_cons]
    have he : oldestBetween a e = a := by
      unfold oldestBetween
      rw [if_neg (h e (List.mem_cons_self _ _))]
    rw [he]
    exact ih a (fun x hx => h x (List.mem_cons_of_mem _ hx))

theorem oldestEntry_mem {c : List CacheEntry} {e : CacheEntry}
    (h : oldestEntry c = some e) : e ∈ c := by
  match c with
  | [] => simp [oldestEntry] at h
  | a :: rest =>
    simp only [oldestEntry, Option.some.injEq] at h
    rcases foldl_oldestBetween_mem rest a with h' | h'
    · rw [← h, h']; exact List.mem_cons_self _ _
    · rw [← h]; exact List.mem_cons_of_mem _ h'

theorem oldestEntry_min {c : List CacheEntry} {e : CacheEntry}
    (h : oldestEntry c = some e) : ∀ x ∈ c, e.timestamp ≤ x.timestamp := by
  match c with
  | [] => simp [oldestEntry] at h
  | a :: rest =>
    simp only [oldestEntry, Option.some.injEq] at h
    obtain ⟨h1, h2⟩ := foldl_oldestBetween_le rest a
    intro x hx
    rcases List.mem_cons.mp hx with rfl | hx
    · rw [← h]; exact h1
    · rw [← h]; exact h2 x hx

theorem oldestEntry_isSome {c : List CacheEntry} (h : c ≠ []) :
    ∃ e, oldestEntry c = some e := by
  match c with
  | [] => exact absurd rfl h
  | a :: rest => exact ⟨_, rfl⟩

theorem length_setEntry_le (c : List CacheEntry) (k ts d : Nat) :
    (setEntry c k ts d).length ≤ c.length + 1 := by
  unfold setEntry
  split
  · simp
  · simp

theorem length_evictOldest {c : List CacheEntry} (h : c ≠ []) :
    (evictOldest c).length = c.length - 1 := by
  obtain ⟨e, he⟩ := oldestEntry_isSome h
  unfold evictOldest
  rw [he]
  exact List.length_eraseP_of_mem (oldestEntry_mem he) (by simp)

theorem length_cacheSet_le (maxSize : Nat) (hC : 1 ≤ maxSize)
    (c : List CacheEntry) (k ts d : Nat) (h : c.length ≤ maxSize) :
    (cacheSet maxSize c k ts d).length ≤ maxSize := by
  unfold cacheSet
  split
  · rename_i hfull
    have hne : c ≠ [] := by
      intro hnil
      rw [hnil] at hfull
      simp at hfull
      omega
    calc (setEntry (evictOldest c) k ts d).length
        ≤ (evictOldest c).length + 1 := length_setEntry_le _ _ _ _
      _ = c.length - 1 + 1 := by rw [length_evictOldest hne]
      _ ≤ maxSize := by omega
  · rename_i hroom
    calc (setEntry c k ts d).length ≤ c.length + 1 := length_setEntry_le _ _ _ _
      _ ≤ maxSize := by omega

theorem length_putAll_le (maxSize : Nat) (hC : 1 ≤ maxSize)
    (puts : List (Nat × Nat × Nat)) (c : List CacheEntry) (h : c.length ≤ maxSize) :
    (putAll maxSize c puts).length ≤ maxSize := by
  induction puts generalizing c with
  | nil => exact h
  | cons p rest ih =>
    exact ih _ (length_cacheSet_le maxSize hC c p.1 p.2.1 p.2.2 h)

theorem putAll_concat (maxSize : Nat) (c : List CacheEntry)
    (ps : List (Nat × Nat × Nat)) (p : Nat × Nat × Nat) :
    putAll maxSize c (ps ++ [p]) = cacheSet maxSize (putAll maxSize c ps) p.1 p.2.1 p.2.2 := by
  unfold putAll
  rw [List.foldl_concat]

theorem insertSeq_succ (maxSize n : Nat) :
    insertSeq maxSize (n + 1) = cacheSet maxSize (insertSeq maxSize n) n n n := by
  unfold insertSeq
  rw [List.range_succ, List.map_append]
  exact putAll_concat maxSize [] _ (n, n, n)

theorem mem_range_map_mkE {n : Nat} {x : CacheEntry}
    (hx : x ∈ (List.range n).map mkE) : x.key < n ∧ x.timestamp = x.key := by
  obtain ⟨i, hi, rfl⟩ := List.mem_map.mp hx
  exact ⟨List.mem_range.mp hi, rfl⟩

theorem insertSeq_eq_of_le (maxSize : Nat) :
    ∀ n, n ≤ maxSize → insertSeq maxSize n = (List.range n).map mkE := by
  intro n
  induction n with
  | zero => intro _; rfl
  | succ n ih =>
    intro h
    rw [insertSeq_succ, ih (Nat.le_of_succ_le h)]
    unfold cacheSet
    have hlen : ((List.range n).map mkE).length = n := by simp
    rw [if_neg (by omega)]
    unfold setEntry
    have hany : ((List.range n).map mkE).any (fun e => e.key == n) = false := by
      rw [List.any_eq_false]
      intro x hx
      have := (mem_range_map_mkE hx).1
      simp only [beq_iff_eq]
      omega
    rw [hany]
    simp only [Bool.false_eq_true, if_false]
    rw [List.range_succ, List.map_append]
    rfl

theorem mem_range'_map_mkE {s n : Nat} {x : CacheEntry}
    (hx : x ∈ (List.range' s n).map mkE) : s ≤ x.key ∧ x.key < s + n := by
  obtain ⟨i, hi, rfl⟩ := List.mem_map.mp hx
  exact List.mem_range'_1.mp hi

theorem range_map_mkE_cons (C : Nat) (hC : 1 ≤ C) :
    (List.range C).map mkE = mkE 0 :: (List.range' 1 (C - 1)).map mkE := by
  obtain ⟨m, rfl⟩ := Nat.exists_eq_add_of_le hC
  rw [List.range_eq_range', Nat.add_comm 1 m, List.range'_succ]
  simp

theorem oldestEntry_cons (e : CacheEntry) (rest : List CacheEntry) :
    oldestEntry (e :: rest) = some (rest.foldl oldestBetween e) := rfl

theorem evictOldest_eq {c : List CacheEntry} {e : CacheEntry}
    (h : oldestEntry c = some e) :
    evictOldest c = c.eraseP (fun x => x.key == e.key) := by
  unfold evictOldest
  rw [h]

theorem insertSeq_overflow (C : Nat) (hC : 1 ≤ C) :
    insertSeq C (C + 1) = (List.range' 1 C).map mkE := by
  rw [insertSeq_succ, insertSeq_eq_of_le C C (le_refl C)]
  unfold cacheSet
  have hlen : ((List.range C).map mkE).length = C := by simp
  rw [if_pos (by omega)]
  have hcons := range_map_mkE_cons C hC
  have hold : oldestEntry ((List.range C).map mkE) = some (mkE 0) := by
    rw [hcons, oldestEntry_cons, foldl_oldestBetween_stay]
    intro x _
    exact Nat.not_lt_zero x.timestamp
  rw [evictOldest_eq hold, hcons, List.eraseP_cons_of_pos (by rfl)]
  unfold setEntry
  have hany : ((List.range' 1 (C - 1)).map mkE).any (fun e => e.key == C) = false := by
    rw [List.any_eq_false]
    intro x hx
    have := (mem_range'_map_mkE hx).2
    simp only [beq_iff_eq]
    omega
  rw [hany]
  simp only [Bool.false_eq_true, if_false]
  have : List.range' 1 C = List.range' 1 (C - 1) ++ [C] := by
    obtain ⟨m, rfl⟩ := Nat.exists_eq_add_of_le hC
    rw [Nat.add_comm 1 m, Nat.add_sub_cancel, List.range'_concat]
    simp [Nat.add_comm]
  rw [this, List.map_append]
  rfl

theorem eraseP_key_find?_none (k : Nat) :
    ∀ c : List CacheEntry, (c.map CacheEntry.key).Nodup →
      (c.eraseP (fun x => x.key == k)).find? (fun x => x.key == k) = none := by
  intro c
  induction c with
  | nil => intro _; rfl
  | cons a rest ih =>
    intro hnd
    simp only [List.map_cons, List.nodup_cons] at hnd
    by_cases ha : a.key = k
    · rw [List.eraseP_cons_of_pos (by simp [ha])]
      rw [List.find?_eq_none]
      intro x hx
      simp only [beq_iff_eq]
      intro hxk
      apply hnd.1
      have hxm : x.key ∈ rest.map CacheEntry.key := List.mem_map_of_mem CacheEntry.key hx
      rw [hxk] at hxm
      rw [ha]
      exact hxm
    · rw [List.eraseP_cons_of_neg (by simp [ha])]
      rw [List.find?_cons_of_neg _ (by simp [ha])]
      exact ih hnd.2

/-- C1: starting from a cache of size at most the capacity, no sequence of
`set` calls ever pushes the size above the capacity; a `set` on a cache
holding exactly `maxSize` entries first deletes the (first) entry whose
timestamp is minimal; and inserting 2001 distinct queries with strictly
increasing timestamps into an empty cache of capacity 2000 leaves exactly
the 2000 most recent entries — the single oldest-inserted key 0 is gone. -/
theorem cache_capacity_eviction_C1 :
    (∀ maxSize (c : List CacheEntry) puts, 1 ≤ maxSize → c.length ≤ maxSize →
        (putAll maxSize c puts).length ≤ maxSize) ∧
    (∀ maxSize (c : List CacheEntry) k ts d, 1 ≤ maxSize → c.length = maxSize →
        ∃ e, oldestEntry c = some e ∧ e ∈ c ∧
          (∀ x ∈ c, e.timestamp ≤ x.timestamp) ∧
          cacheSet maxSize c k ts d =
            setEntry (c.eraseP (fun x => x.key == e.key)) k ts d) ∧
    (insertSeq 2000 2001 = (List.range' 1 2000).map mkE ∧
      (insertSeq 2000 2001).length = 2000 ∧
      ∀ x ∈ insertSeq 2000 2001, x.key ≠ 0) := by
  refine ⟨?_, ?_, ?_, ?_, ?_⟩
  · intro maxSize c puts hC h
    exact length_putAll_le maxSize hC puts c h
  · intro maxSize c k ts d hC hlen
    have hne : c ≠ [] := by
      intro hnil
      rw [hnil] at hlen
      simp at hlen
      omega
    obtain ⟨e, he⟩ := oldestEntry_isSome hne
    refine ⟨e, he, oldestEntry_mem he, oldestEntry_min he, ?_⟩
    unfold cacheSet
    rw [if_pos (by omega), evictOldest_eq he]
  · exact insertSeq_overflow 2000 (by omega)
  · rw [insertSeq_overflow 2000 (by omega)]
    simp
  · intro x hx
    rw [insertSeq_overflow 2000 (by omega)] at hx
    have := (mem_range'_map_mkE hx).1
    omega

theorem cache_capacity_eviction_C1_witness :
    (putAll 1 [] [(0, 0, 0), (1, 1, 1), (2, 2, 2)]).length ≤ 1 ∧
      (insertSeq 2000 2001).length = 2000 :=
  ⟨cache_capacity_eviction_C1.1 1 [] [(0, 0, 0), (1, 1, 1), (2, 2, 2)]
      (by decide) (by decide),
   cache_capacity_eviction_C1.2.2.2.1⟩

theorem cacheGet_of_found {duration : Nat} {c : List CacheEntry} {k now : Nat}
    {e : CacheEntry} (h : c.find? (fun x => x.key == k) = some e) :
    cacheGet duration c k now =
      if now - e.timestamp < duration then (some e.data, c)
      else (none, c.eraseP (fun x => x.key == k)) := by
  unfold cacheGet
  rw [h]

theorem cacheGet_of_absent {duration : Nat} {c : List CacheEntry} {k now : Nat}
    (h : c.find? (fun x => x.key == k) = none) :
    cacheGet duration c k now = (none, c) := by
  unfold cacheGet
  rw [h]

/-- C6: `CacheManager.get` returns the stored payload when the key is
present and younger than the TTL; when the key is present but its age has
reached the TTL it returns `none` and removes the entry (given the dict
invariant that keys are unique, the key is no longer found afterwards);
when the key is absent it returns `none` and leaves the cache unchanged. -/
theorem cache_get_ttl_C6 (duration : Nat) (c : List CacheEntry) (k now : Nat)
    (hnd : (c.map CacheEntry.key).Nodup) :
    (∀ e, c.find? (fun x => x.key == k) = some e →
      ((now - e.timestamp < duration →
          cacheGet duration c k now = (some e.data, c)) ∧
       (duration ≤ now - e.timestamp →
          cacheGet duration c k now = (none, c.eraseP (fun x => x.key == k)) ∧
          ((cacheGet duration c k now).2.find? (fun x => x.key == k) = none)))) ∧
    (c.find? (fun x => x.key == k) = none → cacheGet duration c k now = (none, c)) := by
  constructor
  · intro e he
    constructor
    · intro hfresh
      rw [cacheGet_of_found he, if_pos hfresh]
    · intro hexp
      rw [cacheGet_of_found he, if_neg (not_lt.mpr hexp)]
      exact ⟨rfl, eraseP_key_find?_none k c hnd⟩
  · intro he
    exact cacheGet_of_absent he

theorem cache_get_ttl_C6_witness :
    (cacheGet 10 [⟨3, 5, 42⟩] 3 7 = (some 42, [⟨3, 5, 42⟩])) ∧
      (cacheGet 10 [⟨3, 5, 42⟩] 3 20 = (none, [])) ∧
      (cacheGet 10 [⟨3, 5, 42⟩] 4 7 = (none, [⟨3, 5, 42⟩])) :=
  ⟨((cache_get_ttl_C6 10 [⟨3, 5, 42⟩] 3 7 (by decide)).1 ⟨3, 5, 42⟩
      (by decide)).1 (by decide),
   (((cache_get_ttl_C6 10 [⟨3, 5, 42⟩] 3 20 (by decide)).1 ⟨3, 5, 42⟩
      (by decide)).2 (by decide)).1,
   (cache_get_ttl_C6 10 [⟨3, 5, 42⟩] 4 7 (by decide)).2 (by decide)⟩

/-- C10: `CacheManager.set` with an already-present key on a cache holding
exactly `maxSize` entries still runs the eviction branch (it is triggered
by size alone): the entry `e` with minimal timestamp is deleted even
though it can differ from the overwritten key, and the resulting cache has
`maxSize - 1` entries — strictly below capacity. -/
theorem cache_overwrite_eviction_C10 (maxSize : Nat) (c : List CacheEntry)
    (k ts d : Nat) (e : CacheEntry)
    (hC : 1 ≤ maxSize) (hlen : c.length = maxSize)
    (hmem : c.any (fun x => x.key == k) = true)
    (hold : oldestEntry c = some e) (hne : e.key ≠ k) :
    cacheSet maxSize c k ts d =
      (c.eraseP (fun x => x.key == e.key)).map
        (fun x => if x.key == k then ⟨k, ts, d⟩ else x) ∧
    (cacheSet maxSize c k ts d).length = maxSize - 1 := by
  have hmain : cacheSet maxSize c k ts d =
      (c.eraseP (fun x => x.key == e.key)).map
        (fun x => if x.key == k then ⟨k, ts, d⟩ else x) := by
    unfold cacheSet
    rw [if_pos (by omega), evictOldest_eq hold]
    unfold setEntry
    obtain ⟨x, hxmem, hxk⟩ := List.any_eq_true.mp hmem
    have hxkk : x.key = k := by simpa using hxk
    have hxe : ¬ ((fun y : CacheEntry => y.key == e.key) x = true) := by
      simp only [beq_iff_eq, hxkk]
      exact fun h => hne h.symm
    have hxin : x ∈ c.eraseP (fun y : CacheEntry => y.key == e.key) :=
      (@List.mem_eraseP_of_neg CacheEntry (fun y : CacheEntry => y.key == e.key)
        x c hxe).mpr hxmem
    rw [if_pos (List.any_eq_true.mpr ⟨x, hxin, hxk⟩)]
  refine ⟨hmain, ?_⟩
  rw [hmain, List.length_map,
    List.length_eraseP_of_mem (oldestEntry_mem hold) (by simp), hlen]

theorem cache_overwrite_eviction_C10_witness :
    cacheSet 2 [⟨0, 0, 0⟩, ⟨1, 1, 1⟩] 1 5 7 = [⟨1, 5, 7⟩] ∧
      (cacheSet 2 [⟨0, 0, 0⟩, ⟨1, 1, 1⟩] 1 5 7).length = 1 :=
  cache_overwrite_eviction_C10 2 [⟨0, 0, 0⟩, ⟨1, 1, 1⟩] 1 5 7 ⟨0, 0, 0⟩
    (by decide) (by decide) (by decide) (by decide) (by decide)

/-! ## Chunker (`chunk_document`, src/data_processor.py 180-217 and
src/main.py 126-152) -/

/-- Python `str.strip()`: drop leading and trailing whitespace. -/
def pyStrip (s : List Char) : List Char :=
  ((s.dropWhile Char.isWhitespace).reverse.dropWhile Char.isWhitespace).reverse

/-- One passage produced by `chunk_document`: the id, the stripped window
content, and the `start_pos` / `end_pos` / `chunk_index` metadata. -/
structure Chunk where
  id : String
  content : List Char
  start_pos : Nat
  end_pos : Nat
  chunk_index : Nat
deriving Repr, DecidableEq

/-- The passage id, `hashlib.md5(f"{source}_{i}".encode()).hexdigest()`:
md5 is a pure function, so the id is modelled as the deterministic digest
input `f"{source}_{i}"` itself. -/
def chunkId (source : String) (i : Nat) : String :=
  source ++ "_" ++ toString i

/-- `range(0, contentLength, stride)` for a positive `stride`: the
multiples of `stride` strictly below `contentLength`. -/
def strideWindows (contentLength stride : Nat) : List Nat :=
  (List.range ((contentLength + stride - 1) / stride)).map (· * stride)

/-- The loop body of `chunk_document`: slice the window
`content[i:i+chunkSize]`, strip it, skip it when the stripped length is
below 50, otherwise emit a `Chunk`; `idx` is `len(chunks)` so far. -/
def buildChunks (content : List Char) (source : String) (chunkSize : Nat) :
    List Nat → Nat → List Chunk
  | [], _ => []
  | i :: rest, idx =>
    let cc := pyStrip ((content.drop i).take chunkSize)
    if cc.length < 50 then buildChunks content source chunkSize rest idx
    else
      ⟨chunkId source i, cc, i, min (i + chunkSize) content.length, idx⟩ ::
        buildChunks content source chunkSize rest (idx + 1)

/-- `TheologyDocumentProcessor.chunk_document` (src/data_processor.py
180-217).  The guard `if not content or len(content.strip()) < 20` returns
`[]` first; then `range(0, len(content), chunk_size - overlap)` raises
`ValueError` when the step is zero (`overlap = chunk_size`), is empty when
the step is negative (`overlap > chunk_size`, so the call silently returns
`[]`), and otherwise walks the stride windows.  The variant in
`src/main.py` 126-152 has no minimum-content guard but keeps, skips and
strips exactly the same windows with the same `start_pos`/`end_pos`
metadata. -/
def chunk_document (content : List Char) (source : String)
    (chunkSize overlap : Nat) : Except String (List Chunk) :=
  if content.length = 0 ∨ (pyStrip content).length < 20 then .ok []
  else if chunkSize = overlap then .error "range() arg 3 must not be zero"
  else if chunkSize < overlap then .ok []
  else .ok (buildChunks content source chunkSize
      (strideWindows content.length (chunkSize - overlap)) 0)

example : strideWindows 1000 462 = [0, 462, 924] := by decide

set_option maxRecDepth 4000 in
example :
    (chunk_document (List.replicate 240 'a') "doc" 100 0).toOption.map
      (fun cs => cs.map Chunk.start_pos) = some [0, 100] := by decide

/-! ### Chunker lemmas -/

theorem dropWhile_eq_self_of_false {p : Char → Bool} {s : List Char}
    (h : ∀ c ∈ s, p c = false) : s.dropWhile p = s := by
  cases s with
  | nil => rfl
  | cons a t =>
    exact List.dropWhile_cons_of_neg (by simp [h a (List.mem_cons_self a t)])

theorem pyStrip_of_nonspace {s : List Char}
    (h : ∀ c ∈ s, c.isWhitespace = false) : pyStrip s = s := by
  unfold pyStrip
  rw [dropWhile_eq_self_of_false h,
    dropWhile_eq_self_of_false (fun c hc => h c (List.mem_reverse.mp hc)),
    List.reverse_reverse]

theorem buildChunks_start_sublist (content : List Char) (source : String)
    (chunkSize : Nat) :
    ∀ (positions : List Nat) (idx : Nat),
      ((buildChunks content source chunkSize positions idx).map
        Chunk.start_pos).Sublist positions := by
  intro positions
  induction positions with
  | nil => intro idx; exact List.Sublist.refl _
  | cons i rest ih =>
    intro idx
    simp only [buildChunks]
    split
    · exact (ih idx).cons i
    · simpa using (ih (idx + 1)).cons₂ i

theorem buildChunks_fields (content : List Char) (source : String)
    (chunkSize : Nat) :
    ∀ (positions : List Nat) (idx : Nat),
      ∀ ch ∈ buildChunks content source chunkSize positions idx,
        ch.start_pos ∈ positions ∧
        ch.end_pos = min (ch.start_pos + chunkSize) content.length ∧
        ch.id = chunkId source ch.start_pos ∧
        ch.content = pyStrip ((content.drop ch.start_pos).take chunkSize) := by
  intro positions
  induction positions with
  | nil => intro idx ch hch; simp [buildChunks] at hch
  | cons i rest ih =>
    intro idx ch hch
    simp only [buildChunks] at hch
    split at hch
    · obtain ⟨h1, h2, h3, h4⟩ := ih idx ch hch
      exact ⟨List.mem_cons_of_mem i h1, h2, h3, h4⟩
    · rcases List.mem_cons.mp hch with rfl | hch
      · exact ⟨List.mem_cons_self i rest, rfl, rfl, rfl⟩
      · obtain ⟨h1, h2, h3, h4⟩ := ih (idx + 1) ch hch
        exact ⟨List.mem_cons_of_mem i h1, h2, h3, h4⟩

theorem strideWindows_pairwise (contentLength stride : Nat) (h : 1 ≤ stride) :
    (strideWindows contentLength stride).Pairwise (· < ·) := by
  unfold strideWindows
  exact List.Pairwise.map _ (fun a b hab => by
      exact Nat.mul_lt_mul_of_lt_of_le hab (le_refl stride) h)
    (List.pairwise_lt_range _)

theorem strideWindows_dvd {contentLength stride i : Nat}
    (hi : i ∈ strideWindows contentLength stride) : stride ∣ i := by
  unfold strideWindows at hi
  obtain ⟨j, _, rfl⟩ := List.mem_map.mp hi
  exact ⟨j, Nat.mul_comm j stride⟩

set_option maxRecDepth 8000 in
/-- C2 as stated is false on the code: windows whose stripped content is
shorter than 50 characters are skipped, so the returned `start_pos`
values can jump by more than one stride and the final passage's `end_pos`
can fall short of `len(content)`.  First input: 240 non-whitespace
characters with `chunk_size = 100, overlap = 0` — the tail window at 200
is only 40 characters and is dropped, so the final `end_pos` is 200, not
240.  Second input: 100 letters, 100 spaces, 100 letters — the all-space
middle window is dropped, so consecutive `start_pos` values are 0 and
200, a jump of 200 ≠ 100 = `chunk_size − overlap`. -/
theorem chunk_positions_C2_cex :
    (chunk_document (List.replicate 240 'a') "doc" 100 0).toOption.map
        (fun cs => cs.map (fun ch => (ch.start_pos, ch.end_pos))) =
      some [(0, 100), (100, 200)] ∧
    (List.replicate 240 'a').length = 240 ∧ (200 : Nat) ≠ 240 ∧
    (chunk_document (List.replicate 100 'a' ++ List.replicate 100 ' ' ++
        List.replicate 100 'b') "doc" 100 0).toOption.map
        (fun cs => cs.map Chunk.start_pos) = some [0, 200] ∧
    (200 : Nat) - 0 ≠ 100 - 0 := by
  refine ⟨?_, by decide, by decide, ?_, by decide⟩
  · decide
  · decide

/-- C2, amended: for `overlap < chunk_size` the returned `start_pos`
values are strictly increasing and each one is a multiple of the stride
`chunk_size − overlap` (so consecutive passages differ by a positive
multiple of the stride — exactly one stride when no window in between was
discarded), and every passage — in particular the final one — has
`end_pos = min(start_pos + chunk_size, len(content))`. -/
theorem chunk_positions_C2_amended (content : List Char) (source : String)
    (chunkSize overlap : Nat) (hov : overlap < chunkSize) (res : List Chunk)
    (hres : chunk_document content source chunkSize overlap = .ok res) :
    (res.map Chunk.start_pos).Pairwise (· < ·) ∧
    ∀ ch ∈ res, (chunkSize - overlap) ∣ ch.start_pos ∧
      ch.end_pos = min (ch.start_pos + chunkSize) content.length := by
  unfold chunk_document at hres
  by_cases hg : content.length = 0 ∨ (pyStrip content).length < 20
  · rw [if_pos hg] at hres
    simp only [Except.ok.injEq] at hres
    subst hres
    exact ⟨List.Pairwise.nil, by simp⟩
  · rw [if_neg hg, if_neg (by omega), if_neg (by omega)] at hres
    simp only [Except.ok.injEq] at hres
    subst hres
    constructor
    · exact (strideWindows_pairwise content.length (chunkSize - overlap)
          (by omega)).sublist
        (buildChunks_start_sublist content source chunkSize _ 0)
    · intro ch hch
      obtain ⟨h1, h2, _, _⟩ := buildChunks_fields content source chunkSize _ 0 ch hch
      exact ⟨strideWindows_dvd h1, h2⟩

set_option maxRecDepth 8000 in
theorem chunk_positions_C2_amended_witness :
    (([⟨chunkId "doc" 0, List.replicate 100 'a', 0, 100, 0⟩,
        ⟨chunkId "doc" 100, List.replicate 100 'a', 100, 200, 1⟩] :
          List Chunk).map Chunk.start_pos).Pairwise (· < ·) ∧
      ((100 - 0) ∣
          (⟨chunkId "doc" 100, List.replicate 100 'a', 100, 200, 1⟩ : Chunk).start_pos ∧
        (⟨chunkId "doc" 100, List.replicate 100 'a', 100, 200, 1⟩ : Chunk).end_pos =
          min ((⟨chunkId "doc" 100, List.replicate 100 'a', 100, 200, 1⟩ :
            Chunk).start_pos + 100) (List.replicate 240 'a').length) :=
  ⟨(chunk_positions_C2_amended (List.replicate 240 'a') "doc" 100 0 (by decide)
      [⟨chunkId "doc" 0, List.replicate 100 'a', 0, 100, 0⟩,
        ⟨chunkId "doc" 100, List.replicate 100 'a', 100, 200, 1⟩] (by rfl)).1,
   (chunk_positions_C2_amended (List.replicate 240 'a') "doc" 100 0 (by decide)
      [⟨chunkId "doc" 0, List.replicate 100 'a', 0, 100, 0⟩,
        ⟨chunkId "doc" 100, List.replicate 100 'a', 100, 200, 1⟩] (by rfl)).2
      ⟨chunkId "doc" 100, List.replicate 100 'a', 100, 200, 1⟩ (by simp)⟩

set_option maxRecDepth 4000 in
/-- C4 as stated is false on the code: with `overlap > chunk_size` the
Python stride `chunk_size - overlap` is negative, `range(0, L, negative)`
is empty, and `chunk_document` silently returns the empty list — no
configuration error is raised at construction time or anywhere else. -/
theorem chunk_stride_validation_C4_cex :
    chunk_document (List.replicate 100 'a') "conf" 50 60 = .ok [] := by rfl

/-- C4, amended: there is no construction-time validation; instead, at
call time, `overlap > chunk_size` makes `chunk_document` silently return
the empty passage list, while `overlap = chunk_size` (on content passing
the minimum-length guard) raises Python's step-zero `ValueError` from
`range`, modelled as the `.error` branch. -/
theorem chunk_stride_validation_C4_amended (content : List Char)
    (source : String) (chunkSize overlap : Nat) :
    (chunkSize < overlap → chunk_document content source chunkSize overlap = .ok []) ∧
    (chunkSize = overlap →
      ¬(content.length = 0 ∨ (pyStrip content).length < 20) →
      chunk_document content source chunkSize overlap =
        .error "range() arg 3 must not be zero") := by
  constructor
  · intro h
    unfold chunk_document
    by_cases hg : content.length = 0 ∨ (pyStrip content).length < 20
    · rw [if_pos hg]
    · rw [if_neg hg, if_neg (by omega), if_pos h]
  · intro h hg
    unfold chunk_document
    rw [if_neg hg, if_pos h]

set_option maxRecDepth 4000 in
theorem chunk_stride_validation_C4_witness :
    chunk_document (List.replicate 100 'a') "doc" 50 60 = .ok [] ∧
      chunk_document (List.replicate 100 'a') "doc" 50 50 =
        .error "range() arg 3 must not be zero" :=
  ⟨(chunk_stride_validation_C4_amended (List.replicate 100 'a') "doc" 50 60).1
      (by decide),
   (chunk_stride_validation_C4_amended (List.replicate 100 'a') "doc" 50 50).2
      rfl (by decide)⟩

/-- C8: chunking is deterministic — `chunk_document` is a pure function of
`(content, source, chunk_size, overlap)`, so two calls on identical inputs
yield identical passages; moreover each passage's id is the deterministic
digest of `(source, start_pos)` and its content is determined by
`(content, start_pos, chunk_size)`. -/
theorem chunk_deterministic_C8 (content : List Char) (source : String)
    (chunkSize overlap : Nat) :
    chunk_document content source chunkSize overlap =
      chunk_document content source chunkSize overlap ∧
    ∀ res, chunk_document content source chunkSize overlap = .ok res →
      ∀ ch ∈ res, ch.id = chunkId source ch.start_pos ∧
        ch.content = pyStrip ((content.drop ch.start_pos).take chunkSize) := by
  refine ⟨rfl, ?_⟩
  intro res hres ch hch
  unfold chunk_document at hres
  by_cases hg : content.length = 0 ∨ (pyStrip content).length < 20
  · rw [if_pos hg] at hres
    simp only [Except.ok.injEq] at hres
    subst hres
    simp at hch
  · rw [if_neg hg] at hres
    by_cases he : chunkSize = overlap
    · rw [if_pos he] at hres
      cases hres
    · rw [if_neg he] at hres
      by_cases hlt : chunkSize < overlap
      · rw [if_pos hlt] at hres
        simp only [Except.ok.injEq] at hres
        subst hres
        simp at hch
      · rw [if_neg hlt] at hres
        simp only [Except.ok.injEq] at hres
        subst hres
        obtain ⟨_, _, h3, h4⟩ :=
          buildChunks_fields content source chunkSize _ 0 ch hch
        exact ⟨h3, h4⟩

set_option maxRecDepth 4000 in
theorem chunk_deterministic_C8_witness :
    (⟨chunkId "s" 0, List.replicate 100 'a', 0, 100, 0⟩ : Chunk).id =
        chunkId "s" 0 ∧
      (⟨chunkId "s" 0, List.replicate 100 'a', 0, 100, 0⟩ : Chunk).content =
        pyStrip (((List.replicate 100 'a').drop 0).take 100) :=
  (chunk_deterministic_C8 (List.replicate 100 'a') "s" 100 0).2
    [⟨chunkId "s" 0, List.replicate 100 'a', 0, 100, 0⟩] (by rfl)
    ⟨chunkId "s" 0, List.replicate 100 'a', 0, 100, 0⟩ (by simp)

/-- C9: chunking any 1000-character whitespace-free document with
`chunk_size = 512, overlap = 50` produces exactly the passages starting at
offsets 0, 462 and 924, and the final passage spans `[924, 1000)` —
its `end_pos` is 1000. -/
theorem chunk_scenario_1000_C9 (content : List Char) (source : String)
    (hlen : content.length = 1000)
    (hns : ∀ c ∈ content, c.isWhitespace = false) :
    ∃ res, chunk_document content source 512 50 = .ok res ∧
      res.map Chunk.start_pos = [0, 462, 924] ∧
      (res.map Chunk.end_pos).getLast? = some 1000 ∧
      res.map Chunk.chunk_index = [0, 1, 2] := by
  have hstrip : ∀ i : Nat, pyStrip ((content.drop i).take 512) =
      (content.drop i).take 512 := by
    intro i
    exact pyStrip_of_nonspace
      (fun c hc => hns c (List.drop_subset i content (List.take_subset 512 _ hc)))
  have hstripc : pyStrip content = content := pyStrip_of_nonspace hns
  have hstrip0 : pyStrip (content.take 512) = content.take 512 :=
    pyStrip_of_nonspace (fun c hc => hns c (List.take_subset 512 content hc))
  have hl0t : (content.take 512).length = 512 := by
    rw [List.length_take, hlen]; omega
  have hl0 : ((content.drop 0).take 512).length = 512 := by
    rw [List.length_take, List.length_drop, hlen]; omega
  have hl462 : ((content.drop 462).take 512).length = 512 := by
    rw [List.length_take, List.length_drop, hlen]; omega
  have hl924 : ((content.drop 924).take 512).length = 76 := by
    rw [List.length_take, List.length_drop, hlen]; omega
  have hwin : strideWindows content.length (512 - 50) = [0, 462, 924] := by
    rw [hlen]
    decide
  unfold chunk_document
  rw [if_neg (by rw [hstripc, hlen]; omega), if_neg (by omega),
    if_neg (by omega), hwin]
  refine ⟨_, rfl, ?_, ?_, ?_⟩
  all_goals simp [buildChunks, hstrip, hstrip0, hl0t, hl0, hl462, hl924, hlen]

set_option maxRecDepth 8000 in
theorem chunk_scenario_1000_C9_witness :
    ∃ res, chunk_document (List.replicate 1000 'a') "src" 512 50 = .ok res ∧
      res.map Chunk.start_pos = [0, 462, 924] ∧
      (res.map Chunk.end_pos).getLast? = some 1000 ∧
      res.map Chunk.chunk_index = [0, 1, 2] :=
  chunk_scenario_1000_C9 (List.replicate 1000 'a') "src" (by simp)
    (fun c hc => by rw [List.eq_of_mem_replicate hc]; decide)

/-! ## Retrieval (`VectorSearchEngine.search`, src/main.py 336-360) -/

/-- The loop of `VectorSearchEngine.search`: for each FAISS hit
`(idx, score)` in order, keep `(documents[idx], score)` when
`idx < len(self.documents) and score > 0.3`, otherwise skip it.  FAISS
positions are the spec's non-negative insertion-order integers; scores
are modelled as rationals. -/
def collectRelevant (documents : List String) : List (Nat × ℚ) → List (String × ℚ)
  | [] => []
  | (idx, score) :: rest =>
    if idx < documents.length ∧ (3 : ℚ) / 10 < score then
      (documents.getD idx "", score) :: collectRelevant documents rest
    else collectRelevant documents rest

/-- `VectorSearchEngine.search` without the timing side channel: the FAISS
index is an oracle `index : Nat → List (Nat × ℚ)` mapping a requested
candidate count to the hit list; the engine requests `top_k * 2` hits,
filters them, and truncates to `top_k`. -/
def engineSearch (documents : List String) (index : Nat → List (Nat × ℚ))
    (top_k : Nat) : List (String × ℚ) :=
  (collectRelevant documents (index (top_k * 2))).take top_k

/-! ### Retrieval lemmas -/

theorem collectRelevant_scores_sublist (documents : List String) :
    ∀ hits : List (Nat × ℚ),
      ((collectRelevant documents hits).map Prod.snd).Sublist
        (hits.map Prod.snd) := by
  intro hits
  induction hits with
  | nil => exact List.Sublist.refl _
  | cons h rest ih =>
    obtain ⟨idx, score⟩ := h
    simp only [collectRelevant]
    split
    · simpa using ih.cons₂ score
    · exact ih.cons score

theorem collectRelevant_mem (documents : List String) :
    ∀ (hits : List (Nat × ℚ)) (r : String × ℚ),
      r ∈ collectRelevant documents hits →
        (3 : ℚ) / 10 < r.2 ∧
        ∃ idx, idx < documents.length ∧ (idx, r.2) ∈ hits ∧
          documents.getD idx "" = r.1 := by
  intro hits
  induction hits with
  | nil => intro r hr; simp [collectRelevant] at hr
  | cons h rest ih =>
    obtain ⟨idx, score⟩ := h
    intro r hr
    simp only [collectRelevant] at hr
    split at hr
    · rename_i hcond
      rcases List.mem_cons.mp hr with rfl | hr
      · exact ⟨hcond.2, idx, hcond.1, List.mem_cons_self _ _, rfl⟩
      · obtain ⟨h1, i, h2, h3, h4⟩ := ih r hr
        exact ⟨h1, i, h2, List.mem_cons_of_mem _ h3, h4⟩
    · obtain ⟨h1, i, h2, h3, h4⟩ := ih r hr
      exact ⟨h1, i, h2, List.mem_cons_of_mem _ h3, h4⟩

/-- C3: the engine requests exactly `2 * top_k` candidates from the index;
every hit whose score is at or below the 0.3 threshold or whose position
has no passage in the document store is skipped (total functions, no
error); at most `top_k` results are returned, each the stored passage at a
valid position with score above 0.3; and when the oracle's scores are
(weakly) descending, the returned scores are descending too. -/
theorem engine_search_filter_C3 (documents : List String)
    (index : Nat → List (Nat × ℚ)) (top_k : Nat)
    (hsorted : ((index (top_k * 2)).map Prod.snd).Pairwise (· ≥ ·)) :
    engineSearch documents index top_k =
      (collectRelevant documents (index (top_k * 2))).take top_k ∧
    (engineSearch documents index top_k).length ≤ top_k ∧
    (∀ r ∈ engineSearch documents index top_k,
      (3 : ℚ) / 10 < r.2 ∧
      ∃ idx, idx < documents.length ∧ (idx, r.2) ∈ index (top_k * 2) ∧
        documents.getD idx "" = r.1) ∧
    ((engineSearch documents index top_k).map Prod.snd).Pairwise (· ≥ ·) := by
  refine ⟨rfl, ?_, ?_, ?_⟩
  · exact List.length_take_le top_k _
  · intro r hr
    exact collectRelevant_mem documents (index (top_k * 2)) r
      (List.take_subset _ _ hr)
  · have h1 : ((collectRelevant documents (index (top_k * 2))).map
        Prod.snd).Pairwise (· ≥ ·) :=
      hsorted.sublist (collectRelevant_scores_sublist documents _)
    unfold engineSearch
    rw [List.map_take]
    exact h1.sublist (List.take_sublist _ _)

theorem engine_search_filter_C3_witness :
    engineSearch ["d0", "d1"]
        (fun _ => [(1, 9/10), (5, 8/10), (0, 2/5), (0, 1/10)]) 2 =
      [("d1", 9/10), ("d0", 2/5)] ∧
    (engineSearch ["d0", "d1"]
        (fun _ => [(1, 9/10), (5, 8/10), (0, 2/5), (0, 1/10)]) 2).length ≤ 2 ∧
    ((engineSearch ["d0", "d1"]
        (fun _ => [(1, 9/10), (5, 8/10), (0, 2/5), (0, 1/10)]) 2).map
      Prod.snd).Pairwise (· ≥ ·) :=
  have h := engine_search_filter_C3 ["d0", "d1"]
    (fun _ => [(1, 9/10), (5, 8/10), (0, 2/5), (0, 1/10)]) 2
    (by norm_num [List.pairwise_cons])
  ⟨by norm_num [engineSearch, collectRelevant], h.2.1, h.2.2.2⟩

/-! ## Confidence score (`vector_search`, src/main.py 534-553) -/

/-- The confidence computation of the `/api/search` handler: when
`relevant_docs` is empty the handler returns early with
`confidence_score=0.0`; otherwise `avg_score = sum(scores)/len(scores)`
and `confidence_score = min(avg_score * 1.2, 1.0)`.  Float arithmetic is
modelled over the rationals. -/
def confidenceScore (scores : List ℚ) : ℚ :=
  if scores.length = 0 then 0
  else min (scores.sum / scores.length * (12 / 10)) 1

/-- C5: the confidence is the mean score times the boost factor 1.2,
clamped above at 1.0; the empty result list yields exactly 0.0; and when
every retained score exceeds the 0.3 relevance threshold (which holds for
everything `VectorSearchEngine.search` returns), the confidence lies in
`[0, 1]`. -/
theorem confidence_score_C5 :
    confidenceScore [] = 0 ∧
    (∀ scores : List ℚ, scores ≠ [] →
      confidenceScore scores =
        min (scores.sum / scores.length * (12 / 10)) 1) ∧
    (∀ scores : List ℚ, (∀ s ∈ scores, (3 : ℚ) / 10 < s) →
      0 ≤ confidenceScore scores ∧ confidenceScore scores ≤ 1) := by
  refine ⟨rfl, ?_, ?_⟩
  · intro scores hne
    unfold confidenceScore
    rw [if_neg (by simpa using hne)]
  · intro scores hpos
    unfold confidenceScore
    split
    · norm_num
    · rename_i hne
      constructor
      · apply le_min _ (by norm_num)
        have hsum : 0 ≤ scores.sum := by
          apply List.sum_nonneg
          intro s hs
          exact le_of_lt (lt_trans (by norm_num) (hpos s hs))
        positivity
      · exact min_le_right _ _

theorem confidence_score_C5_witness :
    confidenceScore [] = 0 ∧
      confidenceScore [1/2, 1] = min ((1/2 + 1) / 2 * (12 / 10)) 1 ∧
      0 ≤ confidenceScore [1/2, 1] ∧ confidenceScore [1/2, 1] ≤ 1 :=
  ⟨confidence_score_C5.1,
   by
    have h := confidence_score_C5.2.1 [1/2, 1] (by simp)
    simpa using h,
   confidence_score_C5.2.2 [1/2, 1] (by norm_num)⟩

/-! ## IVF_PQ cluster counts (src/data_processor.py 246-274 and
src/main.py 160-178) -/

/-- `TheologyDocumentProcessor.build_faiss_index` for `IVF_PQ`
(src/data_processor.py line 254): `nlist = min(1024, vectors.shape[0] // 10)`
as a function of the number `n` of training vectors. -/
def build_faiss_index_nlist (n : Nat) : Nat := min 1024 (n / 10)

/-- `Config.NLIST` (src/main.py line 61). -/
def Config_NLIST : Nat := 1024

/-- `FAISSIndexManager.create_index` for `IVF_PQ` (src/main.py 160-178)
passes `Config.NLIST` to `faiss.IndexIVFPQ` unconditionally — the cluster
count does not depend on the number of training vectors at all. -/
def create_index_nlist : Nat := Config_NLIST

/-- C7 as stated is false on the code: the server path
(`FAISSIndexManager.create_index`) uses the constant `NLIST = 1024`
whatever the corpus size; for the 10-passage corpus that
`build_sample_index` trains it with, 1024 exceeds the corpus-derived
bound `n / 10 = 1`. -/
theorem nlist_clamp_C7_cex :
    create_index_nlist = 1024 ∧ 10 / 10 < create_index_nlist := by
  constructor
  · rfl
  · show 10 / 10 < create_index_nlist
    decide

/-- C7, amended: only the offline data-processing path
(`build_faiss_index`) clamps the cluster count, to
`min(1024, n // 10)` — at most 1024 and at most `n / 10`; the server path
(`create_index`) always uses the constant `Config.NLIST = 1024`,
independent of the training-vector count. -/
theorem nlist_clamp_C7_amended :
    (∀ n : Nat, build_faiss_index_nlist n ≤ 1024 ∧
      build_faiss_index_nlist n ≤ n / 10) ∧
    create_index_nlist = Config_NLIST := by
  refine ⟨?_, rfl⟩
  intro n
  exact ⟨min_le_left _ _, min_le_right _ _⟩
